import Mathlib

/-!
Verification of the mkdocs-puml-mod diagram encoding and concurrent
translation pipeline.

The repository ships `mkdocs_puml_mod/plugin.py` (the MkDocs host
integration) together with its encoder test.  The encoder module
(`mkdocs_puml_mod/encoder.py`) and the translator module
(`mkdocs_puml_mod/puml.py`, class `PlantUML`) are imported by the plugin
but their files are not part of the source tree; the definitions below
that model them are written from the specification and carry a
`Modelled from the spec:` doc comment.  The plugin-level definitions
(`onPostPage`, selector logic) are translated from `plugin.py` directly.
-/

namespace MkdocsPuml

/-! ## Encoder -/

/-- Spelling of the 64-symbol URL-safe alphabet of the remote rendering
service (digits, upper case, lower case, dash, underscore). -/
def alphabetString : String := "0123456789ABCDEFGHIJKLMNOPQRSTUVWXYZabcdefghijklmnopqrstuvwxyz-_"

/-- Modelled from the spec: the 64-symbol alphabet (distinct from standard
base64) used by the missing encoder module to re-encode compressed bytes. -/
def plantumlAlphabet : List Char := alphabetString.toList

/-- Modelled from the spec: map a 6-bit group to its alphabet symbol. -/
def encode6bit (b : Nat) : Char := plantumlAlphabet.getD b '?'

/-- Modelled from the spec: pack 3 input bytes into 4 output symbols using
6-bit groups. -/
def encode3bytes (b1 b2 b3 : Nat) : List Char :=
  [encode6bit (b1 / 4),
   encode6bit (b1 % 4 * 16 + b2 / 16),
   encode6bit (b2 % 16 * 4 + b3 / 64),
   encode6bit (b3 % 64)]

/-- Modelled from the spec: re-encode a byte sequence with the 64-symbol
alphabet, 3 bytes per 4 symbols; a final partial group of 1 or 2 leftover
bytes encodes to 2 or 3 symbols respectively. -/
def encode64 : List Nat → List Char
  | [] => []
  | [b1] => (encode3bytes b1 0 0).take 2
  | [b1, b2] => (encode3bytes b1 b2 0).take 3
  | b1 :: b2 :: b3 :: rest => encode3bytes b1 b2 b3 ++ encode64 rest

/-- Modelled from the spec: step (1) of the missing encoder module is a
standard deflate-style lossless compression with no header/checksum
framing.  We model it as the deflate stored-block form (a valid raw
deflate stream): the data is cut into chunks of at most 65535 bytes, each
preceded by a 5-byte block header holding the final-block flag, the chunk
length LEN in little-endian order and its ones-complement NLEN.  This
captures the two properties the spec relies on: the output is a byte
sequence whose length feeds the packing ratio, and the transform is
lossless (invertible by `inflate`). -/
def deflate (bs : List Nat) : List Nat :=
  if h : bs.drop 65535 = [] then
    1 :: bs.length % 256 :: bs.length / 256 ::
      (255 - bs.length % 256) :: (255 - bs.length / 256) :: bs
  else
    0 :: 255 :: 255 :: 0 :: 0 :: (bs.take 65535 ++ deflate (bs.drop 65535))
termination_by bs.length
decreasing_by
  have hlen : ¬ bs.length ≤ 65535 := fun hle => h (List.drop_eq_nil_of_le hle)
  simp only [List.length_drop]
  omega

/-- Modelled from the spec: UTF-8 encoding of one unicode code point
(the "raw text bytes" of the diagram source). -/
def utf8Char (c : Char) : List Nat :=
  if c.toNat < 128 then [c.toNat]
  else if c.toNat < 2048 then [192 + c.toNat / 64, 128 + c.toNat % 64]
  else if c.toNat < 65536 then
    [224 + c.toNat / 4096, 128 + c.toNat / 64 % 64, 128 + c.toNat % 64]
  else
    [240 + c.toNat / 262144, 128 + c.toNat / 4096 % 64, 128 + c.toNat / 64 % 64,
      128 + c.toNat % 64]

/-- Modelled from the spec: the UTF-8 byte sequence of a diagram text. -/
def utf8Bytes (s : List Char) : List Nat := s.flatMap utf8Char

/-- Modelled from the spec: the encoder of the missing module
`mkdocs_puml_mod/encoder.py`.  `encode(source)` compresses the raw text
bytes with the deflate-style compression and re-encodes the compressed
bytes with the 64-symbol alphabet. -/
def encode (s : String) : String := String.mk (encode64 (deflate (utf8Bytes s.data)))

/-- The compressed byte length of a diagram text: the length of the
deflate output that the alphabet re-encoding step consumes. -/
def compressedLen (t : String) : Nat := (deflate (utf8Bytes t.data)).length

/-- Index of a symbol in a symbol list, counting from `i`. -/
def symIdxFrom (c : Char) : List Char → Nat → Option Nat
  | [], _ => none
  | a :: rest, i => if a = c then some i else symIdxFrom c rest (i + 1)

/-- Index of a symbol in the 64-symbol alphabet, used by the in-principle
decoder. -/
def decodeChar (c : Char) : Option Nat := symIdxFrom c plantumlAlphabet 0

/-- Inverse of `encode64`: groups of 4 symbols yield 3 bytes, a final
group of 3 or 2 symbols yields 2 or 1 bytes. -/
def decode64 : List Char → Option (List Nat)
  | [] => some []
  | [_] => none
  | [c1, c2] =>
    match decodeChar c1, decodeChar c2 with
    | some d1, some d2 => some [d1 * 4 + d2 / 16]
    | _, _ => none
  | [c1, c2, c3] =>
    match decodeChar c1, decodeChar c2, decodeChar c3 with
    | some d1, some d2, some d3 => some [d1 * 4 + d2 / 16, d2 % 16 * 16 + d3 / 4]
    | _, _, _ => none
  | c1 :: c2 :: c3 :: c4 :: rest =>
    match decodeChar c1, decodeChar c2, decodeChar c3, decodeChar c4, decode64 rest with
    | some d1, some d2, some d3, some d4, some tail =>
      some ((d1 * 4 + d2 / 16) :: (d2 % 16 * 16 + d3 / 4) :: (d3 % 4 * 64 + d4) :: tail)
    | _, _, _, _, _ => none

/-- Inverse of `deflate`: read stored blocks until the final-block flag. -/
def inflate : List Nat → Option (List Nat)
  | bfinal :: l1 :: l2 :: _ :: _ :: rest =>
    if bfinal = 1 then
      if rest.length = l1 + 256 * l2 then some rest else none
    else if l1 + 256 * l2 ≤ rest.length then
      match inflate (rest.drop (l1 + 256 * l2)) with
      | some tail => some (rest.take (l1 + 256 * l2) ++ tail)
      | none => none
    else none
  | _ => none
termination_by bs => bs.length
decreasing_by
  simp only [List.length_drop, List.length_cons]
  omega

/-- Decode a single UTF-8 encoded code point from a first byte and the
following bytes: returns the code point and the remaining bytes. -/
def utf8DecodeOne (b : Nat) (rest : List Nat) : Option (Nat × List Nat) :=
  if b < 128 then some (b, rest)
  else if b < 192 then none
  else if b < 224 then
    match rest with
    | b2 :: rest2 =>
      if 128 ≤ b2 ∧ b2 < 192 then some ((b - 192) * 64 + (b2 - 128), rest2) else none
    | _ => none
  else if b < 240 then
    match rest with
    | b2 :: b3 :: rest3 =>
      if (128 ≤ b2 ∧ b2 < 192) ∧ (128 ≤ b3 ∧ b3 < 192) then
        some ((b - 224) * 4096 + (b2 - 128) * 64 + (b3 - 128), rest3)
      else none
    | _ => none
  else
    match rest with
    | b2 :: b3 :: b4 :: rest4 =>
      if (128 ≤ b2 ∧ b2 < 192) ∧ (128 ≤ b3 ∧ b3 < 192) ∧ (128 ≤ b4 ∧ b4 < 192) then
        some ((b - 240) * 262144 + (b2 - 128) * 4096 + (b3 - 128) * 64 + (b4 - 128),
          rest4)
      else none
    | _ => none

/-- Fuel-indexed worker of the UTF-8 decoder; the fuel dominates the
number of decoded code points. -/
def utf8DecodeFuel : Nat → List Nat → Option (List Nat)
  | _, [] => some []
  | 0, _ :: _ => none
  | fuel + 1, b :: rest =>
    (utf8DecodeOne b rest).bind
      (fun p => (utf8DecodeFuel fuel p.2).map (fun t => p.1 :: t))

/-- Inverse of `utf8Bytes`: decode a UTF-8 byte sequence back to the list
of code points. -/
def utf8Decode (bs : List Nat) : Option (List Nat) := utf8DecodeFuel bs.length bs

/-- In-principle decoder witnessing that `encode` is information
preserving: undo the alphabet re-encoding, the compression and the UTF-8
encoding. -/
def decode (s : String) : Option String :=
  match decode64 s.data with
  | none => none
  | some compressed =>
    match inflate compressed with
    | none => none
    | some bytes =>
      match utf8Decode bytes with
      | none => none
      | some points => some (String.mk (points.map Char.ofNat))


/-! ## Translator -/

/-- Modelled from the spec: the error taxonomy of a failed render task of
the missing translator module: network/transport failure, non-success
status, timeout, or batch-level cancellation. -/
inductive RenderError where
  | connectionError : RenderError
  | badStatus : Nat → RenderError
  | timeout : RenderError
  | cancelled : RenderError
deriving DecidableEq, Repr

/-- Modelled from the spec: the per-position outcome of a translate call:
either the SVG payload of a successful render, or an in-band error marker
that names the failing diagram source. -/
inductive RenderResult where
  | svg : String → RenderResult
  | error : String → RenderError → RenderResult
deriving DecidableEq, Repr

/-- An error-marker result. -/
def RenderResult.isErrorMarker : RenderResult → Bool
  | .svg _ => false
  | .error _ _ => true

/-- Modelled from the spec: one render task.  The network fetch is the
parameter `render` (it returns the response body or a failure); a failure
is captured and converted into an in-band error result that identifies
the failing diagram. -/
def renderTask (render : String → Except RenderError String) (s : String) : RenderResult :=
  match render s with
  | Except.ok body => RenderResult.svg body
  | Except.error e => RenderResult.error s e

/-- Modelled from the spec: the list of unique diagram sources of a batch
in first-occurrence order, given the sources already seen. -/
def uniqueFrom (seen : List String) : List String → List String
  | [] => []
  | s :: rest =>
    if s ∈ seen then uniqueFrom seen rest else s :: uniqueFrom (s :: seen) rest

/-- Modelled from the spec: the set of unique diagram keys of a batch,
preserving first-occurrence order (deduplication by byte-for-byte
equality of the source text). -/
def uniqueKeys (batch : List String) : List String := uniqueFrom [] batch

/-- First result recorded for a key in the completed-results map. -/
def findResult (s : String) : List (String × RenderResult) → Option RenderResult
  | [] => none
  | (k, r) :: rest => if k = s then some r else findResult s rest

/-- Modelled from the spec: the deduplicating translator of the missing
module `mkdocs_puml_mod/puml.py`.  Every unique key is rendered exactly
once; the output sequence is assembled by looking up each original batch
entry's key in the completed-results map. -/
def translate (render : String → Except RenderError String) (batch : List String) :
    List RenderResult :=
  let results := (uniqueKeys batch).map (fun s => (s, renderTask render s))
  batch.map (fun s =>
    (findResult s results).getD (RenderResult.error s RenderError.cancelled))

/-- Modelled from the spec: the state of the bounded worker pool during
one translate call: render tasks not yet started, tasks currently
in-flight (outstanding network requests), and the completed-results map. -/
structure PoolState where
  pending : List String
  inflight : List String
  done : List (String × RenderResult)
deriving DecidableEq, Repr

/-- Modelled from the spec: a scheduling decision of the worker pool:
admit the next pending task (subject to the pool bound), or complete the
i-th in-flight request.  The schedule is an external choice sequence, so
completion order is entirely unconstrained. -/
inductive PoolAction where
  | start : PoolAction
  | finish : Nat → PoolAction
deriving DecidableEq, Repr

/-- Modelled from the spec: one scheduling step of the worker pool with
`k` workers.  A task is admitted only while fewer than `k` requests are
in flight; completing an in-flight request records its result against its
key in the completed-results map. -/
def poolStep (render : String → Except RenderError String) (k : Nat)
    (st : PoolState) (a : PoolAction) : PoolState :=
  match a with
  | PoolAction.start =>
    match st.pending with
    | [] => st
    | t :: rest =>
      if st.inflight.length < k then
        { pending := rest, inflight := st.inflight ++ [t], done := st.done }
      else st
  | PoolAction.finish i =>
    match st.inflight[i]? with
    | some t =>
      { pending := st.pending, inflight := st.inflight.eraseIdx i,
        done := st.done ++ [(t, renderTask render t)] }
    | none => st

/-- Run the worker pool over a schedule. -/
def runPool (render : String → Except RenderError String) (k : Nat)
    (st : PoolState) (sched : List PoolAction) : PoolState :=
  sched.foldl (poolStep render k) st

/-- Modelled from the spec: the pool starts with one pending render task
per unique key and nothing in flight or done. -/
def initPool (batch : List String) : PoolState :=
  { pending := uniqueKeys batch, inflight := [], done := [] }

/-- The barrier at the end of a translate call: every unique render task
has been admitted and has completed. -/
def poolDrained (st : PoolState) : Prop := st.pending = [] ∧ st.inflight = []

/-- Modelled from the spec: the full translate call under an explicit
schedule: run the worker pool, then assemble the output by looking up
each batch entry's key in the completed-results map; a key with no
recorded result (an unfinished task under a cancelled schedule) yields a
cancellation error marker. -/
def translatePool (render : String → Except RenderError String) (k : Nat)
    (sched : List PoolAction) (batch : List String) : List RenderResult :=
  let fin := runPool render k (initPool batch) sched
  batch.map (fun s =>
    (findResult s fin.done).getD (RenderResult.error s RenderError.cancelled))

/-- The shared-resource discipline of the pool (one write per unique key,
all reads after the barrier), phrased as a state invariant: the unique
keys of the batch are split among the pending queue, the in-flight set
and the completed-results map, and every completed entry holds the result
of its own render task. -/
def poolInv (render : String → Except RenderError String) (batch : List String)
    (st : PoolState) : Prop :=
  (st.pending ++ st.inflight ++ st.done.map Prod.fst).Perm (uniqueKeys batch) ∧
    ∀ p ∈ st.done, p.2 = renderTask render p.1

/-! ## Plugin (translated from `mkdocs_puml_mod/plugin.py`) -/

/-- The keyword looked for by the cheap substring guard of
`on_post_page` (plugin.py line 90). -/
def kwPuml : String := "puml"

/-- Class name selected by the second CSS selector. -/
def clsLangPuml : String := "language-puml"

/-- Substring test on strings, modelling the Python `in` operator of
`if "puml" not in output` (plugin.py line 90). -/
def strContains (hay needle : String) : Bool :=
  (List.range (hay.data.length + 1)).any
    (fun i => needle.data.isPrefixOf (hay.data.drop i))

/-- A fenced code block of the rendered HTML page: a `<code>` tag inside a
`<pre>` tag, with the class lists of both tags and the text content.  The
three CSS selectors of plugin.py lines 95-97 discriminate on exactly
these class lists. -/
structure CodeBlock where
  preClasses : List String
  codeClasses : List String
  text : String
deriving DecidableEq, Repr

/-- CSS selector `pre code.puml` (plugin.py line 95): a code tag of class
`puml` inside a pre tag. -/
def matchPreCodePuml (b : CodeBlock) : Bool := b.codeClasses.contains kwPuml

/-- CSS selector `pre code.language-puml` (plugin.py line 96): a code tag
of class `language-puml` inside a pre tag. -/
def matchPreCodeLangPuml (b : CodeBlock) : Bool := b.codeClasses.contains clsLangPuml

/-- CSS selector `pre.puml code` (plugin.py line 97): a code tag inside a
pre tag of class `puml`. -/
def matchPrePumlCode (b : CodeBlock) : Bool := b.preClasses.contains kwPuml

/-- The selector chain of plugin.py lines 95-97: Python `or` keeps the
first non-empty selection. -/
def selectBlocks (page : List CodeBlock) : List CodeBlock :=
  let s1 := page.filter matchPreCodePuml
  let s2 := page.filter matchPreCodeLangPuml
  let s3 := page.filter matchPrePumlCode
  if s1 ≠ [] then s1 else if s2 ≠ [] then s2 else s3

/-- An element of the processed page: either an untouched code block or
the `<div class="puml">` holding a rendered diagram that replaced a
selected block's parent (plugin.py lines 103-114). -/
inductive PageElem where
  | code : CodeBlock → PageElem
  | div : String → PageElem
deriving DecidableEq, Repr

/-- The block-level body of `on_post_page` (plugin.py lines 99-114): the
selected blocks are replaced by `div.puml` tags, the batch of their text
contents is translated, and the i-th rendered SVG lands in the div that
replaced the i-th selected block; every non-selected block is left in
place unchanged. -/
def processPage (tf : List String → List String) (page : List CodeBlock) :
    List PageElem :=
  let sel := selectBlocks page
  let svgs := tf (sel.map CodeBlock.text)
  page.map (fun b =>
    if b ∈ sel then
      PageElem.div (svgs.getD (sel.findIdx (fun x => x = b)) "")
    else PageElem.code b)

/-- The guard of `on_post_page` (plugin.py lines 90-92): a page without
the substring `puml` is returned as-is, skipping HTML parsing; otherwise
the page is parsed, processed and re-serialized, modelled by the abstract
`process` function. -/
def onPostPage (process : String → String) (output : String) : String :=
  if strContains output kwPuml then process output else output

/-! ## Concrete inputs used by the witnesses -/

/-- A sample diagram source. -/
def srcA : String := "A --> B"

/-- A second sample diagram source. -/
def srcB : String := "C --> D"

/-- A third sample diagram source. -/
def srcC : String := "E --> F"

/-- A render backend that echoes the source it received. -/
def renderEcho : String → Except RenderError String := fun s => Except.ok s

/-- A render backend that fails with a timeout exactly on `srcB`. -/
def renderFail : String → Except RenderError String :=
  fun s => if s = srcB then Except.error RenderError.timeout else Except.ok s

/-- A two-element batch with distinct entries. -/
def batchAB : List String := [srcA, srcB]

/-- A three-element batch with a duplicated entry. -/
def batchDup : List String := [srcA, srcA, srcB]

/-- A schedule that completes the two tasks of `batchAB` in the order
opposite to their submission order. -/
def schedRev : List PoolAction :=
  [PoolAction.start, PoolAction.start, PoolAction.finish 1, PoolAction.finish 0]

/-- Two call histories that both contain `srcA`. -/
def callsW1 : List String := [srcA, srcB]

/-- A second call history containing `srcA` at another position. -/
def callsW2 : List String := [srcC, srcA]

/-- A page body with no occurrence of the keyword `puml`. -/
def pageNoPuml : String := "<html><body>no diagrams at all</body></html>"

/-- A code block matching the first selector `pre code.puml`. -/
def blockP : CodeBlock := { preClasses := [], codeClasses := [kwPuml], text := srcA }

/-- A code block matching only the second selector
`pre code.language-puml`. -/
def blockL : CodeBlock := { preClasses := [], codeClasses := [clsLangPuml], text := srcB }

/-- A page holding one block per selector flavour. -/
def pageW : List CodeBlock := [blockP, blockL]

/-- A stub translate function for the page-processing witness. -/
def tfId : List String → List String := fun l => l

/-! ## Theorems -/

/-- C1: for every batch B of diagram source texts, translate(B) returns a
sequence whose length equals len(B); this holds for every render backend,
in particular when some or all of the individual renders fail, and also
for the worker-pool run under every schedule (failures fill their slots
with error results rather than shrinking or aborting the output). -/
theorem translate_batch_shape (render : String → Except RenderError String)
    (k : Nat) (sched : List PoolAction) (batch : List String) :
    (translate render batch).length = batch.length ∧
      (translatePool render k sched batch).length = batch.length := by
  constructor <;> simp [translate, translatePool]

/-- C7: encode is deterministic and history-independent: if the same
diagram text occurs anywhere in any two call histories, the corresponding
outputs of mapping encode over the histories are identical — the result
depends on the text alone, not on shared state or call history. -/
theorem encode_deterministic (calls1 calls2 : List String) (i j : Nat) (t : String)
    (h1 : calls1[i]? = some t) (h2 : calls2[j]? = some t) :
    (calls1.map encode)[i]? = (calls2.map encode)[j]? := by
  simp [List.getElem?_map, h1, h2]

/-- Witness for C7 at two concrete call histories sharing `srcA`. -/
theorem encode_deterministic_witness :
    callsW1[0]? = some srcA ∧ callsW2[1]? = some srcA ∧
      (callsW1.map encode)[0]? = (callsW2.map encode)[1]? :=
  ⟨rfl, rfl, encode_deterministic callsW1 callsW2 0 1 srcA rfl rfl⟩

/-- C9: for every HTML page string that does not contain the substring
`puml`, on_post_page returns the input string itself unchanged, for every
possible parse-and-translate continuation — so no HTML parsing, no
translation call and no re-serialization can influence the result. -/
theorem onPostPage_skip (process : String → String) (output : String)
    (h : strContains output kwPuml = false) :
    onPostPage process output = output := by
  simp [onPostPage, h]

/-- Witness for C9 at a concrete page without the keyword. -/
theorem onPostPage_skip_witness :
    strContains pageNoPuml kwPuml = false ∧
      onPostPage (fun s => s) pageNoPuml = pageNoPuml :=
  ⟨by decide, onPostPage_skip (fun s => s) pageNoPuml (by decide)⟩

/-- C10: on_post_page selects the code blocks to translate by the first
non-empty selector in the fixed order `pre code.puml`, then
`pre code.language-puml`, then `pre.puml code`; on any page containing at
least one `pre code.puml` block, the selection is exactly the
`pre code.puml` blocks, blocks matching only the later selectors are not
selected, and every non-selected block stays in the processed page
unchanged at its position. -/
theorem selector_priority (tf : List String → List String) (page : List CodeBlock)
    (h : page.filter matchPreCodePuml ≠ []) :
    selectBlocks page = page.filter matchPreCodePuml ∧
      (∀ b, matchPreCodeLangPuml b = true → matchPreCodePuml b = false →
        b ∉ selectBlocks page) ∧
      (∀ (i : Nat) (b : CodeBlock), page[i]? = some b → matchPreCodePuml b = false →
        (processPage tf page)[i]? = some (PageElem.code b)) := by
  have hsel : selectBlocks page = page.filter matchPreCodePuml := by
    simp [selectBlocks, h]
  refine ⟨hsel, ?_, ?_⟩
  · intro b _ hb1 hmem
    rw [hsel] at hmem
    exact absurd (List.of_mem_filter hmem) (by simp [hb1])
  · intro i b hib hb1
    have hnot : b ∉ selectBlocks page := by
      rw [hsel]
      intro hmem
      exact absurd (List.of_mem_filter hmem) (by simp [hb1])
    simp only [processPage, List.getElem?_map, hib, Option.map_some]
    simp [hnot]

/-- Witness for C10 at a concrete page holding one `pre code.puml` block
and one block matching only `pre code.language-puml`. -/
theorem selector_priority_witness :
    pageW.filter matchPreCodePuml ≠ [] ∧
      (selectBlocks pageW = pageW.filter matchPreCodePuml ∧
        (∀ b, matchPreCodeLangPuml b = true → matchPreCodePuml b = false →
          b ∉ selectBlocks pageW) ∧
        (∀ (i : Nat) (b : CodeBlock), pageW[i]? = some b → matchPreCodePuml b = false →
          (processPage tfId pageW)[i]? = some (PageElem.code b))) :=
  ⟨by decide, selector_priority tfId pageW (by decide)⟩

/-! ### Translator lemmas -/

theorem mem_uniqueFrom {s : String} :
    ∀ (l seen : List String), s ∈ uniqueFrom seen l ↔ s ∈ l ∧ s ∉ seen := by
  intro l
  induction l with
  | nil => intro seen; simp [uniqueFrom]
  | cons a rest ih =>
    intro seen
    by_cases h : a ∈ seen
    · simp only [uniqueFrom, if_pos h, ih, List.mem_cons]
      constructor
      · rintro ⟨hr, hn⟩; exact ⟨Or.inr hr, hn⟩
      · rintro ⟨ha | hr, hn⟩
        · exact absurd (ha ▸ h) hn
        · exact ⟨hr, hn⟩
    · simp only [uniqueFrom, if_neg h, List.mem_cons, ih]
      constructor
      · rintro (ha | ⟨hr, hn⟩)
        · exact ⟨Or.inl ha, ha ▸ h⟩
        · exact ⟨Or.inr hr, fun hs => hn (Or.inr hs)⟩
      · rintro ⟨ha | hr, hn⟩
        · exact Or.inl ha
        · by_cases has : s = a
          · exact Or.inl has
          · exact Or.inr ⟨hr, by simp [has, hn]⟩

theorem nodup_uniqueFrom : ∀ (l seen : List String), (uniqueFrom seen l).Nodup := by
  intro l
  induction l with
  | nil => intro seen; simp [uniqueFrom]
  | cons a rest ih =>
    intro seen
    by_cases h : a ∈ seen
    · simpa only [uniqueFrom, if_pos h] using ih seen
    · simp only [uniqueFrom, if_neg h, List.nodup_cons]
      refine ⟨fun hmem => ?_, ih (a :: seen)⟩
      exact ((mem_uniqueFrom rest (a :: seen)).mp hmem).2 (List.mem_cons_self a seen)

theorem mem_uniqueKeys {s : String} {batch : List String} :
    s ∈ uniqueKeys batch ↔ s ∈ batch := by
  simp [uniqueKeys, mem_uniqueFrom]

theorem nodup_uniqueKeys (batch : List String) : (uniqueKeys batch).Nodup :=
  nodup_uniqueFrom batch []

theorem findResult_map_of_mem (render : String → Except RenderError String)
    {s : String} : ∀ {l : List String}, s ∈ l →
      findResult s (l.map (fun x => (x, renderTask render x))) =
        some (renderTask render s) := by
  intro l
  induction l with
  | nil => intro h; simp at h
  | cons a rest ih =>
    intro h
    by_cases ha : a = s
    · subst ha; simp [findResult]
    · have : s ∈ rest := by
        rcases List.mem_cons.mp h with h1 | h1
        · exact absurd h1.symm ha
        · exact h1
      simp [findResult, ha, ih this]

theorem translate_getElem_some (render : String → Except RenderError String)
    (batch : List String) (i : Nat) (s : String) (h : batch[i]? = some s) :
    (translate render batch)[i]? = some (renderTask render s) := by
  have hmem : s ∈ batch := List.getElem?_mem h
  have huniq : s ∈ uniqueKeys batch := mem_uniqueKeys.mpr hmem
  simp [translate, List.getElem?_map, h, findResult_map_of_mem render huniq]

theorem perm_cons_eraseIdx {α : Type} :
    ∀ (l : List α) (i : Nat) (x : α), l[i]? = some x → l.Perm (x :: l.eraseIdx i) := by
  intro l
  induction l with
  | nil => intro i x h; simp at h
  | cons a tl ih =>
    intro i x h
    cases i with
    | zero =>
      simp only [List.getElem?_cons_zero, Option.some_inj] at h
      subst h
      simp [List.eraseIdx]
    | succ n =>
      simp only [List.getElem?_cons_succ] at h
      have hperm := ih n x h
      have herase : (a :: tl).eraseIdx (n + 1) = a :: tl.eraseIdx n := rfl
      rw [herase]
      exact (hperm.cons a).trans (List.Perm.swap x a (tl.eraseIdx n))

theorem poolStep_inv (render : String → Except RenderError String) (k : Nat)
    (batch : List String) (a : PoolAction) (st : PoolState)
    (h : poolInv render batch st) : poolInv render batch (poolStep render k st a) := by
  obtain ⟨hperm, hdone⟩ := h
  cases a with
  | start =>
    cases hp : st.pending with
    | nil => exact ⟨by simpa [poolStep, hp] using hperm, by simpa [poolStep, hp] using hdone⟩
    | cons t rest =>
      by_cases hk : st.inflight.length < k
      · constructor
        · simp only [poolStep, hp, if_pos hk]
          rw [hp] at hperm
          refine List.Perm.trans ?_ hperm
          have h1 : rest ++ (st.inflight ++ [t]) ++ st.done.map Prod.fst =
              (rest ++ st.inflight) ++ t :: st.done.map Prod.fst := by
            simp [List.append_assoc]
          rw [h1]
          have h2 : (t :: rest) ++ st.inflight ++ st.done.map Prod.fst =
              t :: (rest ++ st.inflight ++ st.done.map Prod.fst) := by
            simp [List.append_assoc]
          rw [h2]
          simpa [List.append_assoc] using
            (@List.perm_middle String t (rest ++ st.inflight) (st.done.map Prod.fst))
        · simpa [poolStep, hp, if_pos hk] using hdone
      · exact ⟨by simpa [poolStep, hp, hk] using hperm, by simpa [poolStep, hp, hk] using hdone⟩
  | finish i =>
    cases hi : st.inflight[i]? with
    | none => exact ⟨by simpa [poolStep, hi] using hperm, by simpa [poolStep, hi] using hdone⟩
    | some t =>
      have he : st.inflight.Perm (t :: st.inflight.eraseIdx i) :=
        perm_cons_eraseIdx st.inflight i t hi
      constructor
      · simp only [poolStep, hi, List.map_append, List.map_cons, List.map_nil]
        refine List.Perm.trans ?_ hperm
        have h2 : List.Perm (st.inflight.eraseIdx i ++ (st.done.map Prod.fst ++ [t]))
            (st.inflight ++ st.done.map Prod.fst) :=
          ((List.Perm.append_left _ (List.perm_append_singleton t _)).trans
            List.perm_middle).trans (he.symm.append_right _)
        simpa [List.append_assoc] using List.Perm.append_left st.pending h2
      · intro p hp
        simp only [poolStep, hi] at hp
        rcases List.mem_append.mp hp with hp1 | hp1
        · exact hdone p hp1
        · simp only [List.mem_singleton] at hp1
          subst hp1
          rfl

theorem runPool_inv (render : String → Except RenderError String) (k : Nat)
    (batch : List String) :
    ∀ (sched : List PoolAction) (st : PoolState), poolInv render batch st →
      poolInv render batch (runPool render k st sched) := by
  intro sched
  induction sched with
  | nil => intro st h; exact h
  | cons a rest ih =>
    intro st h
    exact ih (poolStep render k st a) (poolStep_inv render k batch a st h)

theorem initPool_inv (render : String → Except RenderError String)
    (batch : List String) : poolInv render batch (initPool batch) := by
  constructor
  · simp [initPool]
  · intro p hp; simp [initPool] at hp

theorem findResult_of_entries (render : String → Except RenderError String) :
    ∀ (done : List (String × RenderResult)),
      (∀ p ∈ done, p.2 = renderTask render p.1) →
      ∀ s ∈ done.map Prod.fst, findResult s done = some (renderTask render s) := by
  intro done
  induction done with
  | nil => intro _ s hs; simp at hs
  | cons p rest ih =>
    intro hall s hs
    obtain ⟨a, r⟩ := p
    by_cases ha : a = s
    · subst ha
      have : r = renderTask render a := hall (a, r) (List.mem_cons_self _ _)
      simp [findResult, this]
    · simp only [findResult, if_neg ha]
      refine ih (fun q hq => hall q (List.mem_cons_of_mem _ hq)) s ?_
      simp only [List.map_cons, List.mem_cons] at hs
      rcases hs with hs | hs
      · exact absurd hs.symm ha
      · exact hs

theorem findResult_drained (render : String → Except RenderError String)
    (batch : List String) (st : PoolState) (hinv : poolInv render batch st)
    (hdr : poolDrained st) {s : String} (hs : s ∈ uniqueKeys batch) :
    findResult s st.done = some (renderTask render s) := by
  obtain ⟨hperm, hdone⟩ := hinv
  obtain ⟨hp, hf⟩ := hdr
  rw [hp, hf] at hperm
  simp only [List.nil_append] at hperm
  exact findResult_of_entries render st.done hdone s (hperm.mem_iff.mpr hs)

/-! ### Theorems for the translator claims -/

/-- C2: for every batch B, the i-th element of translate(B) is the render
result for B[i]: under every schedule that drains the worker pool (any
completion order of the concurrent render tasks), the pool run produces
exactly the deterministic input-order output, and that output holds at
position i the result of rendering exactly B[i]. -/
theorem translate_order_independence (render : String → Except RenderError String)
    (k : Nat) (sched : List PoolAction) (batch : List String)
    (h : poolDrained (runPool render k (initPool batch) sched)) :
    translatePool render k sched batch = translate render batch ∧
      ∀ (i : Nat) (s : String), batch[i]? = some s →
        (translate render batch)[i]? = some (renderTask render s) := by
  have hinv := runPool_inv render k batch sched (initPool batch)
    (initPool_inv render batch)
  constructor
  · unfold translatePool translate
    apply List.map_congr_left
    intro s hs
    have hu : s ∈ uniqueKeys batch := mem_uniqueKeys.mpr hs
    rw [findResult_drained render batch _ hinv h hu, findResult_map_of_mem render hu]
  · intro i s hi
    exact translate_getElem_some render batch i s hi

/-- Witness for C2: a two-element batch run on two workers with the
completion order reversed with respect to the submission order. -/
theorem translate_order_independence_witness :
    poolDrained (runPool renderEcho 2 (initPool batchAB) schedRev) ∧
      (translatePool renderEcho 2 schedRev batchAB = translate renderEcho batchAB ∧
        ∀ (i : Nat) (s : String), batchAB[i]? = some s →
          (translate renderEcho batchAB)[i]? = some (renderTask renderEcho s)) :=
  ⟨⟨rfl, rfl⟩, translate_order_independence renderEcho 2 schedRev batchAB ⟨rfl, rfl⟩⟩

/-- C3: under every schedule, the pool issues at most one render request
per distinct diagram source text (the completed-results map records at
most one entry per key), and positions holding equal source texts receive
equal results. -/
theorem translate_dedup (render : String → Except RenderError String)
    (k : Nat) (sched : List PoolAction) (batch : List String) :
    (∀ s : String,
        (((runPool render k (initPool batch) sched).done.map Prod.fst).count s ≤ 1)) ∧
      ∀ (i j : Nat) (s : String), batch[i]? = some s → batch[j]? = some s →
        (translate render batch)[i]? = (translate render batch)[j]? := by
  constructor
  · have hinv := runPool_inv render k batch sched (initPool batch)
      (initPool_inv render batch)
    have h1 : ((runPool render k (initPool batch) sched).pending ++
        (runPool render k (initPool batch) sched).inflight ++
        ((runPool render k (initPool batch) sched).done.map Prod.fst)).Nodup :=
      (hinv.1.nodup_iff).mpr (nodup_uniqueKeys batch)
    have h2 : (((runPool render k (initPool batch) sched).done.map Prod.fst)).Nodup :=
      h1.of_append_right
    intro s
    exact List.nodup_iff_count_le_one.mp h2 s
  · intro i j s hi hj
    rw [translate_getElem_some render batch i s hi, translate_getElem_some render batch j s hj]

/-- Witness for C3: a batch with a duplicated first entry. -/
theorem translate_dedup_witness :
    batchDup[0]? = some srcA ∧ batchDup[1]? = some srcA ∧
      (∀ s : String,
        (((runPool renderEcho 1 (initPool batchDup) schedRev).done.map Prod.fst).count s
          ≤ 1)) ∧
      (translate renderEcho batchDup)[0]? = (translate renderEcho batchDup)[1]? :=
  ⟨rfl, rfl, (translate_dedup renderEcho 1 schedRev batchDup).1,
    (translate_dedup renderEcho 1 schedRev batchDup).2 0 1 srcA rfl rfl⟩

/-- C4: if the render of one diagram key fails while every other key
succeeds, translate places the error-marker result (naming the failing
key) at exactly the positions holding the failing key, and the correct
successful render result at every other position; translate itself is a
total function, so the failure is never raised out of it. -/
theorem translate_failure_isolation (render : String → Except RenderError String)
    (f : String) (e : RenderError) (batch : List String)
    (hf : render f = Except.error e)
    (hok : ∀ s, s ≠ f → ∃ v, render s = Except.ok v) :
    ∀ (i : Nat) (s : String), batch[i]? = some s →
      (s = f → (translate render batch)[i]? = some (RenderResult.error f e)) ∧
      (s ≠ f → ∃ v, render s = Except.ok v ∧
        (translate render batch)[i]? = some (RenderResult.svg v)) := by
  intro i s hi
  constructor
  · intro hs
    subst hs
    rw [translate_getElem_some render batch i s hi]
    simp [renderTask, hf]
  · intro hs
    obtain ⟨v, hv⟩ := hok s hs
    refine ⟨v, hv, ?_⟩
    rw [translate_getElem_some render batch i s hi]
    simp [renderTask, hv]

/-- Witness for C4: a three-entry batch whose second distinct key `srcB`
is the only one the backend fails on. -/
theorem translate_failure_isolation_witness :
    renderFail srcB = Except.error RenderError.timeout ∧
      (∀ s, s ≠ srcB → ∃ v, renderFail s = Except.ok v) ∧
      ∀ (i : Nat) (s : String), batchDup[i]? = some s →
        (s = srcB → (translate renderFail batchDup)[i]? =
          some (RenderResult.error srcB RenderError.timeout)) ∧
        (s ≠ srcB → ∃ v, renderFail s = Except.ok v ∧
          (translate renderFail batchDup)[i]? = some (RenderResult.svg v)) :=
  ⟨by simp [renderFail], fun s hs => ⟨s, by simp [renderFail, hs]⟩,
    translate_failure_isolation renderFail srcB RenderError.timeout batchDup
      (by simp [renderFail]) (fun s hs => ⟨s, by simp [renderFail, hs]⟩)⟩

/-! ### Concurrency bound -/

theorem poolStep_inflight_le (render : String → Except RenderError String) (k : Nat)
    (st : PoolState) (a : PoolAction) (h : st.inflight.length ≤ k) :
    (poolStep render k st a).inflight.length ≤ k := by
  cases a with
  | start =>
    cases hp : st.pending with
    | nil => simpa [poolStep, hp] using h
    | cons t rest =>
      by_cases hk : st.inflight.length < k
      · simp [poolStep, hp, if_pos hk]
        omega
      · simpa [poolStep, hp, hk] using h
  | finish i =>
    cases hi : st.inflight[i]? with
    | none => simpa [poolStep, hi] using h
    | some t =>
      have he := perm_cons_eraseIdx st.inflight i t hi
      have hlen := he.length_eq
      simp only [poolStep, hi, List.length_cons] at *
      omega

theorem runPool_inflight_le (render : String → Except RenderError String) (k : Nat) :
    ∀ (sched : List PoolAction) (st : PoolState), st.inflight.length ≤ k →
      (runPool render k st sched).inflight.length ≤ k := by
  intro sched
  induction sched with
  | nil => intro st h; exact h
  | cons a rest ih =>
    intro st h
    exact ih (poolStep render k st a) (poolStep_inflight_le render k st a h)

/-- C8: with a worker pool of size k, at most k render requests are in
flight at any point of a translate call: after any prefix of any
schedule, the in-flight set of the pool has at most k elements. -/
theorem pool_concurrency_bound (render : String → Except RenderError String)
    (k : Nat) (batch : List String) (sched : List PoolAction) (n : Nat) :
    ((runPool render k (initPool batch) (sched.take n)).inflight).length ≤ k :=
  runPool_inflight_le render k (sched.take n) (initPool batch) (by simp [initPool])

/-! ### Encoder lemmas -/

theorem char_toNat_lt (c : Char) : c.toNat < 1114112 := by
  have h : c.toNat < 55296 ∨ (57344 ≤ c.toNat ∧ c.toNat < 1114112) := c.valid
  omega

theorem utf8Char_lt (c : Char) : ∀ b ∈ utf8Char c, b < 256 := by
  intro b hb
  have hn := char_toNat_lt c
  simp only [utf8Char] at hb
  split at hb
  · simp only [List.mem_singleton] at hb; omega
  · split at hb
    · simp only [List.mem_cons, List.mem_singleton, List.not_mem_nil, or_false] at hb
      rcases hb with hb | hb <;> omega
    · split at hb
      · simp only [List.mem_cons, List.mem_singleton, List.not_mem_nil, or_false] at hb
        rcases hb with hb | hb | hb <;> omega
      · simp only [List.mem_cons, List.mem_singleton, List.not_mem_nil, or_false] at hb
        rcases hb with hb | hb | hb | hb <;> omega

theorem utf8Bytes_lt (s : List Char) : ∀ b ∈ utf8Bytes s, b < 256 := by
  intro b hb
  simp only [utf8Bytes, List.mem_flatMap] at hb
  obtain ⟨c, _, hc⟩ := hb
  exact utf8Char_lt c b hc

theorem deflate_bytes_lt : ∀ (bs : List Nat), (∀ b ∈ bs, b < 256) →
    ∀ b ∈ deflate bs, b < 256 := by
  intro bs
  induction bs using deflate.induct with
  | case1 bs h =>
    intro hlt b hb
    have hle : bs.length ≤ 65535 := List.drop_eq_nil_iff.mp h
    rw [deflate, dif_pos h] at hb
    simp only [List.mem_cons] at hb
    rcases hb with hb | hb | hb | hb | hb | hb
    · omega
    · omega
    · omega
    · omega
    · omega
    · exact hlt b hb
  | case2 bs h ih =>
    intro hlt b hb
    rw [deflate, dif_neg h] at hb
    simp only [List.mem_cons, List.mem_append] at hb
    rcases hb with hb | hb | hb | hb | hb | hb | hb
    · omega
    · omega
    · omega
    · omega
    · omega
    · exact hlt b (List.take_subset 65535 bs hb)
    · exact ih (fun x hx => hlt x (List.mem_of_mem_drop hx)) b hb

theorem encode64_length : ∀ (bs : List Nat), (encode64 bs).length =
    4 * (bs.length / 3) +
      (if bs.length % 3 = 0 then 0 else bs.length % 3 + 1) := by
  intro bs
  induction bs using encode64.induct with
  | case1 => simp [encode64]
  | case2 b1 => simp [encode64, encode3bytes]
  | case3 b1 b2 => simp [encode64, encode3bytes]
  | case4 b1 b2 b3 rest ih =>
    have h3 : (rest.length + 3) % 3 = rest.length % 3 := by omega
    have h4 : (rest.length + 3) / 3 = rest.length / 3 + 1 := by omega
    simp only [encode64, encode3bytes, List.length_append, List.length_cons, ih,
      List.length_nil, h3, h4]
    by_cases h : rest.length % 3 = 0 <;> simp [h] <;> omega

theorem encode6bit_mem {b : Nat} (h : b < 64) : encode6bit b ∈ plantumlAlphabet := by
  have hall : ∀ b' : Nat, b' < 64 → encode6bit b' ∈ plantumlAlphabet := by decide
  exact hall b h

theorem encode64_alphabet : ∀ (bs : List Nat), (∀ b ∈ bs, b < 256) →
    ∀ c ∈ encode64 bs, c ∈ plantumlAlphabet := by
  intro bs
  induction bs using encode64.induct with
  | case1 => intro _ c hc; simp [encode64] at hc
  | case2 b1 =>
    intro hlt c hc
    have h1 : b1 < 256 := hlt b1 (by simp)
    simp only [encode64, encode3bytes, List.take, List.mem_cons, List.not_mem_nil,
      or_false] at hc
    rcases hc with hc | hc <;> subst hc <;> exact encode6bit_mem (by omega)
  | case3 b1 b2 =>
    intro hlt c hc
    have h1 : b1 < 256 := hlt b1 (by simp)
    have h2 : b2 < 256 := hlt b2 (by simp)
    simp only [encode64, encode3bytes, List.take, List.mem_cons, List.not_mem_nil,
      or_false] at hc
    rcases hc with hc | hc | hc <;> subst hc <;> exact encode6bit_mem (by omega)
  | case4 b1 b2 b3 rest ih =>
    intro hlt c hc
    have h1 : b1 < 256 := hlt b1 (by simp)
    have h2 : b2 < 256 := hlt b2 (by simp)
    have h3 : b3 < 256 := hlt b3 (by simp)
    simp only [encode64, encode3bytes, List.mem_append, List.mem_cons,
      List.not_mem_nil, or_false] at hc
    rcases hc with ((hc | hc | hc | hc) | hc)
    · subst hc; exact encode6bit_mem (by omega)
    · subst hc; exact encode6bit_mem (by omega)
    · subst hc; exact encode6bit_mem (by omega)
    · subst hc; exact encode6bit_mem (by omega)
    · exact ih (fun x hx => hlt x (by simp [hx])) c hc

/-! ### Theorems for the encoder claims -/

/-- C5: for every diagram text t, every character of encode(t) belongs to
the fixed 64-symbol URL-safe alphabet, and the length of encode(t)
follows the 3-bytes-to-4-symbols packing ratio on the compressed byte
length: each full group of 3 compressed bytes contributes 4 symbols, and
a final partial group of 1 or 2 leftover bytes contributes 2 or 3
symbols respectively. -/
theorem encode_alphabet_and_length (t : String) :
    (∀ c ∈ (encode t).data, c ∈ plantumlAlphabet) ∧
      (encode t).length = 4 * (compressedLen t / 3) +
        (if compressedLen t % 3 = 0 then 0 else compressedLen t % 3 + 1) := by
  constructor
  · intro c hc
    exact encode64_alphabet (deflate (utf8Bytes t.data))
      (deflate_bytes_lt (utf8Bytes t.data) (utf8Bytes_lt t.data)) c hc
  · have h : (encode t).length = (encode64 (deflate (utf8Bytes t.data))).length := rfl
    rw [h, encode64_length]
    rfl

/-- Witness for C5 at a concrete diagram text. -/
theorem encode_alphabet_and_length_witness :
    (∀ c ∈ (encode srcA).data, c ∈ plantumlAlphabet) ∧
      (encode srcA).length = 4 * (compressedLen srcA / 3) +
        (if compressedLen srcA % 3 = 0 then 0 else compressedLen srcA % 3 + 1) :=
  encode_alphabet_and_length srcA

theorem decodeChar_encode6bit {b : Nat} (h : b < 64) :
    decodeChar (encode6bit b) = some b := by
  have hall : ∀ b' : Nat, b' < 64 → decodeChar (encode6bit b') = some b' := by decide
  exact hall b h

theorem decode64_encode64 : ∀ (bs : List Nat), (∀ b ∈ bs, b < 256) →
    decode64 (encode64 bs) = some bs := by
  intro bs
  induction bs using encode64.induct with
  | case1 => intro _; rfl
  | case2 b1 =>
    intro hlt
    have h1 : b1 < 256 := hlt b1 (by simp)
    show decode64 [encode6bit (b1 / 4), encode6bit (b1 % 4 * 16 + 0 / 16)] = some [b1]
    rw [decode64, decodeChar_encode6bit (by omega), decodeChar_encode6bit (by omega)]
    simp only [Option.some_inj, List.cons_inj_right, List.cons.injEq, and_true]
    omega
  | case3 b1 b2 =>
    intro hlt
    have h1 : b1 < 256 := hlt b1 (by simp)
    have h2 : b2 < 256 := hlt b2 (by simp)
    show decode64 [encode6bit (b1 / 4), encode6bit (b1 % 4 * 16 + b2 / 16),
      encode6bit (b2 % 16 * 4 + 0 / 64)] = some [b1, b2]
    rw [decode64, decodeChar_encode6bit (by omega), decodeChar_encode6bit (by omega),
      decodeChar_encode6bit (by omega)]
    simp only [Option.some_inj, List.cons.injEq, and_true]
    constructor
    · omega
    · omega
  | case4 b1 b2 b3 rest ih =>
    intro hlt
    have h1 : b1 < 256 := hlt b1 (by simp)
    have h2 : b2 < 256 := hlt b2 (by simp)
    have h3 : b3 < 256 := hlt b3 (by simp)
    have hrest := ih (fun x hx => hlt x (by simp [hx]))
    show decode64 (encode6bit (b1 / 4) :: encode6bit (b1 % 4 * 16 + b2 / 16) ::
      encode6bit (b2 % 16 * 4 + b3 / 64) :: encode6bit (b3 % 64) ::
      encode64 rest) = some (b1 :: b2 :: b3 :: rest)
    rw [decode64, decodeChar_encode6bit (by omega), decodeChar_encode6bit (by omega),
      decodeChar_encode6bit (by omega), decodeChar_encode6bit (by omega), hrest]
    simp only [Option.some_inj, List.cons.injEq, and_true]
    refine ⟨by omega, by omega, by omega⟩

theorem inflate_deflate : ∀ (bs : List Nat), inflate (deflate bs) = some bs := by
  intro bs
  induction bs using deflate.induct with
  | case1 bs h =>
    have hle : bs.length ≤ 65535 := List.drop_eq_nil_iff.mp h
    rw [deflate, dif_pos h, inflate]
    have hlen : bs.length = bs.length % 256 + 256 * (bs.length / 256) := by omega
    simp [← hlen]
  | case2 bs h ih =>
    have hgt : 65535 < bs.length := by
      have := List.drop_eq_nil_iff.not.mp h
      omega
    have htake : (bs.take 65535).length = 65535 := by
      simp [List.length_take]
      omega
    rw [deflate, dif_neg h, inflate]
    have hone : (0 : Nat) ≠ 1 := by omega
    rw [if_neg hone]
    have hlen255 : (255 : Nat) + 256 * 255 = 65535 := by norm_num
    have hresteq : ((bs.take 65535 ++ deflate (bs.drop 65535)).length) =
        65535 + (deflate (bs.drop 65535)).length := by
      simp [List.length_append, htake]
    rw [hlen255]
    rw [if_pos (by rw [hresteq]; omega)]
    rw [List.drop_left' htake, ih]
    simp only [List.take_left' htake, List.take_append_drop]

theorem utf8DecodeFuel_bytes : ∀ (s : List Char) (fuel : Nat),
    (utf8Bytes s).length ≤ fuel →
      utf8DecodeFuel fuel (utf8Bytes s) = some (s.map Char.toNat) := by
  intro s
  induction s with
  | nil => intro fuel _; cases fuel <;> rfl
  | cons c rest ih =>
    intro fuel hf
    have hn := char_toNat_lt c
    have hsplit : utf8Bytes (c :: rest) = utf8Char c ++ utf8Bytes rest := by
      simp [utf8Bytes]
    rw [hsplit] at hf ⊢
    by_cases h1 : c.toNat < 128
    · have hc : utf8Char c = [c.toNat] := by simp [utf8Char, h1]
      rw [hc] at hf ⊢
      simp only [List.cons_append, List.nil_append, List.length_cons] at hf ⊢
      cases fuel with
      | zero => omega
      | succ g =>
        rw [utf8DecodeFuel]
        have hone : utf8DecodeOne c.toNat (utf8Bytes rest) =
            some (c.toNat, utf8Bytes rest) := by
          simp [utf8DecodeOne, h1]
        rw [hone, Option.some_bind, ih g (by omega)]
        rfl
    · by_cases h2 : c.toNat < 2048
      · have hc : utf8Char c = [192 + c.toNat / 64, 128 + c.toNat % 64] := by
          simp [utf8Char, h1, h2]
        rw [hc] at hf ⊢
        simp only [List.cons_append, List.nil_append, List.length_cons] at hf ⊢
        cases fuel with
        | zero => omega
        | succ g =>
          rw [utf8DecodeFuel]
          have e1 : ¬ (192 + c.toNat / 64 < 128) := by omega
          have e2 : ¬ (192 + c.toNat / 64 < 192) := by omega
          have e3 : 192 + c.toNat / 64 < 224 := by omega
          have e4 : 128 ≤ 128 + c.toNat % 64 ∧ 128 + c.toNat % 64 < 192 := by omega
          have hone : utf8DecodeOne (192 + c.toNat / 64)
              ((128 + c.toNat % 64) :: utf8Bytes rest) =
              some (c.toNat, utf8Bytes rest) := by
            simp only [utf8DecodeOne, if_neg e1, if_neg e2, if_pos e3, if_pos e4,
              Option.some_inj, Prod.mk.injEq]
            exact ⟨by omega, trivial⟩
          rw [hone, Option.some_bind, ih g (by omega)]
          rfl
      · by_cases h3 : c.toNat < 65536
        · have hc : utf8Char c = [224 + c.toNat / 4096, 128 + c.toNat / 64 % 64,
              128 + c.toNat % 64] := by
            simp [utf8Char, h1, h2, h3]
          rw [hc] at hf ⊢
          simp only [List.cons_append, List.nil_append, List.length_cons] at hf ⊢
          cases fuel with
          | zero => omega
          | succ g =>
            rw [utf8DecodeFuel]
            have e1 : ¬ (224 + c.toNat / 4096 < 128) := by omega
            have e2 : ¬ (224 + c.toNat / 4096 < 192) := by omega
            have e3 : ¬ (224 + c.toNat / 4096 < 224) := by omega
            have e4 : 224 + c.toNat / 4096 < 240 := by omega
            have e5 : (128 ≤ 128 + c.toNat / 64 % 64 ∧ 128 + c.toNat / 64 % 64 < 192) ∧
                (128 ≤ 128 + c.toNat % 64 ∧ 128 + c.toNat % 64 < 192) := by omega
            have hone : utf8DecodeOne (224 + c.toNat / 4096)
                ((128 + c.toNat / 64 % 64) :: (128 + c.toNat % 64) :: utf8Bytes rest) =
                some (c.toNat, utf8Bytes rest) := by
              simp only [utf8DecodeOne, if_neg e1, if_neg e2, if_neg e3, if_pos e4,
                if_pos e5, Option.some_inj, Prod.mk.injEq]
              exact ⟨by omega, trivial⟩
            rw [hone, Option.some_bind, ih g (by omega)]
            rfl
        · have hc : utf8Char c = [240 + c.toNat / 262144, 128 + c.toNat / 4096 % 64,
              128 + c.toNat / 64 % 64, 128 + c.toNat % 64] := by
            simp [utf8Char, h1, h2, h3]
          rw [hc] at hf ⊢
          simp only [List.cons_append, List.nil_append, List.length_cons] at hf ⊢
          cases fuel with
          | zero => omega
          | succ g =>
            rw [utf8DecodeFuel]
            have e1 : ¬ (240 + c.toNat / 262144 < 128) := by omega
            have e2 : ¬ (240 + c.toNat / 262144 < 192) := by omega
            have e3 : ¬ (240 + c.toNat / 262144 < 224) := by omega
            have e4 : ¬ (240 + c.toNat / 262144 < 240) := by omega
            have e5 : (128 ≤ 128 + c.toNat / 4096 % 64 ∧
                  128 + c.toNat / 4096 % 64 < 192) ∧
                (128 ≤ 128 + c.toNat / 64 % 64 ∧ 128 + c.toNat / 64 % 64 < 192) ∧
                (128 ≤ 128 + c.toNat % 64 ∧ 128 + c.toNat % 64 < 192) := by omega
            have hone : utf8DecodeOne (240 + c.toNat / 262144)
                ((128 + c.toNat / 4096 % 64) :: (128 + c.toNat / 64 % 64) ::
                  (128 + c.toNat % 64) :: utf8Bytes rest) =
                some (c.toNat, utf8Bytes rest) := by
              simp only [utf8DecodeOne, if_neg e1, if_neg e2, if_neg e3, if_neg e4,
                if_pos e5, Option.some_inj, Prod.mk.injEq]
              exact ⟨by omega, trivial⟩
            rw [hone, Option.some_bind, ih g (by omega)]
            rfl

theorem utf8Decode_bytes (s : List Char) :
    utf8Decode (utf8Bytes s) = some (s.map Char.toNat) :=
  utf8DecodeFuel_bytes s (utf8Bytes s).length (Nat.le_refl _)

/-- C6: encode is information-preserving: the explicit decoder `decode`
(alphabet un-mapping, decompression, UTF-8 decoding) recovers every
diagram text exactly, so encode performs no lossy normalization and is
injective. -/
theorem decode_encode (t : String) : decode (encode t) = some t := by
  have hdef : ∀ b ∈ deflate (utf8Bytes t.data), b < 256 :=
    deflate_bytes_lt (utf8Bytes t.data) (utf8Bytes_lt t.data)
  have h1 : (encode t).data = encode64 (deflate (utf8Bytes t.data)) := rfl
  unfold decode
  rw [h1, decode64_encode64 _ hdef]
  simp only [inflate_deflate, utf8Decode_bytes, List.map_map]
  have hmap : List.map (Char.ofNat ∘ Char.toNat) t.data = t.data := by
    simp [Function.comp_def, Char.ofNat_toNat]
  rw [hmap]

end MkdocsPuml
